import Mathlib

/-!
Verification of the section segmenter in `scripts/extract_content.py`.

The segmenter (`build_sections`, with helpers `is_heading` and
`split_paragraphs`) is embedded shallowly: strings are `List Char`, each
Python helper becomes a structurally recursive Lean function, and the regex
fragments used by the source are compiled by hand into equivalent scanners
(maximal-munch arguments discharge the backtracking in each pattern).

Modelling conventions, applied uniformly:
- whitespace is the ASCII set matched by Python's `str.strip`/`\s` on the
  extractor's output: space, tab, newline, carriage return, vertical tab,
  form feed;
- character classes (`isalpha`, `isupper`, `[A-Z]`, `\d`, `\w`) are modelled
  on the ASCII range, as are `str.upper`/`str.lower`/`str.capitalize`;
- `str.splitlines` is modelled on `'\n'` boundaries (the extractor requests
  `-eol unix` output), keeping Python's behaviour of not producing a final
  empty line for a trailing newline;
- `int(0.6 * n)` is modelled exactly for the argument range the code uses
  (see `intFloat06`).
-/

namespace Extract

/-- ASCII whitespace, the characters Python's `str.strip` and the regex
class `\s` recognise on extractor output. -/
def pyWs (c : Char) : Bool :=
  c == ' ' || c == '\t' || c == '\n' || c == '\r' || c == '\x0B' || c == '\x0C'

/-- ASCII uppercase letter, the class `[A-Z]` and `str.isupper` on letters. -/
def isUpperAZ (c : Char) : Bool := 'A' ≤ c && c ≤ 'Z'

/-- ASCII lowercase letter. -/
def isLowerAZ (c : Char) : Bool := 'a' ≤ c && c ≤ 'z'

/-- ASCII letter, modelling `str.isalpha`. -/
def isAlphaAZ (c : Char) : Bool := isUpperAZ c || isLowerAZ c

/-- ASCII digit, modelling the regex class `\d`. -/
def isDigit09 (c : Char) : Bool := '0' ≤ c && c ≤ '9'

/-- Regex word character `\w` (ASCII): letter, digit or underscore. -/
def isWordChar (c : Char) : Bool := isAlphaAZ c || isDigit09 c || c == '_'

/-- A character of the class `[IVXLC]` in the enumerated-heading regex. -/
def isRomanChar (c : Char) : Bool :=
  c == 'I' || c == 'V' || c == 'X' || c == 'L' || c == 'C'

/-- ASCII uppercasing of one character (`str.upper`). -/
def toUpperAZ (c : Char) : Char :=
  if isLowerAZ c then Char.ofNat (c.toNat - 32) else c

/-- ASCII lowercasing of one character (`str.lower`). -/
def toLowerAZ (c : Char) : Char :=
  if isUpperAZ c then Char.ofNat (c.toNat + 32) else c

/-- `str.lstrip()`: drop leading whitespace. -/
def lstripWs (s : List Char) : List Char := s.dropWhile pyWs

/-- `str.rstrip()`: drop trailing whitespace. -/
def rstripWs (s : List Char) : List Char := (s.reverse.dropWhile pyWs).reverse

/-- `str.strip()`: drop leading and trailing whitespace. -/
def stripWs (s : List Char) : List Char := lstripWs (rstripWs s)

/-- Worker for `collapseWs`; `prevWs` records whether the previous character
was whitespace, so each maximal whitespace run contributes one `' '`. -/
def collapseAux (prevWs : Bool) : List Char → List Char
  | [] => []
  | c :: r =>
    if pyWs c then
      if prevWs then collapseAux true r else ' ' :: collapseAux true r
    else c :: collapseAux false r

/-- `re.sub(r"\s+", " ", s)`: replace every maximal whitespace run by a
single space. -/
def collapseWs (s : List Char) : List Char := collapseAux false s

/-- Worker for `pySplitWs`; `acc` holds the current word reversed. -/
def pySplitWsAux (acc : List Char) : List Char → List (List Char)
  | [] => if acc.isEmpty then [] else [acc.reverse]
  | c :: r =>
    if pyWs c then
      if acc.isEmpty then pySplitWsAux [] r else acc.reverse :: pySplitWsAux [] r
    else pySplitWsAux (c :: acc) r

/-- `str.split()` with no argument: whitespace-separated words, no empties. -/
def pySplitWs (s : List Char) : List (List Char) := pySplitWsAux [] s

/-- Worker for `pySplitlines`; `acc` holds the current line reversed. -/
def splitlinesAux (acc : List Char) : List Char → List (List Char)
  | [] => [acc.reverse]
  | c :: r =>
    if c = '\n' then
      acc.reverse :: (if r.isEmpty then [] else splitlinesAux [] r)
    else splitlinesAux (c :: acc) r

/-- `str.splitlines()` on `'\n'` boundaries: a trailing newline does not
produce a final empty line, and the empty string has no lines. -/
def pySplitlines (s : List Char) : List (List Char) :=
  if s.isEmpty then [] else splitlinesAux [] s

/-- Worker for `pyReSplitBlank`.  `chunk` is the current chunk reversed;
`pend = some buf` means a whitespace run beginning with `'\n'` is being
buffered (reversed) and the engine has not yet decided whether it is a
separator.  A buffered run containing a second `'\n'` is a separator match
of `\n\s*\n+`, which by leftmost-greedy matching extends from the run's
first `'\n'` through its last `'\n'`; whitespace after that last `'\n'`
belongs to the next chunk. -/
def splitBlankAux (chunk : List Char) (pend : Option (List Char)) :
    List Char → List (List Char)
  | [] =>
    match pend with
    | none => [chunk.reverse]
    | some buf =>
      if 2 ≤ buf.count '\n' then
        [chunk.reverse, (buf.takeWhile (fun c => c != '\n')).reverse]
      else [(buf ++ chunk).reverse]
  | c :: r =>
    match pend with
    | none =>
      if c = '\n' then splitBlankAux chunk (some ['\n']) r
      else splitBlankAux (c :: chunk) none r
    | some buf =>
      if pyWs c then splitBlankAux chunk (some (c :: buf)) r
      else if 2 ≤ buf.count '\n' then
        chunk.reverse :: splitBlankAux (c :: buf.takeWhile (fun c => c != '\n')) none r
      else splitBlankAux (c :: (buf ++ chunk)) none r

/-- `re.split(r"\n\s*\n+", s)`: split at whitespace runs containing at
least two newlines. -/
def pyReSplitBlank (s : List Char) : List (List Char) := splitBlankAux [] none s

/-- `split_paragraphs` (extract_content.py, lines 172-182): split the
stripped text into blocks along blank-line runs, then per block strip each
line, join with single spaces, collapse whitespace and strip, discarding
empty results. -/
def split_paragraphs (text : List Char) : List (List Char) :=
  ((pyReSplitBlank (stripWs text)).map (fun b =>
      stripWs (collapseWs (List.intercalate [' ']
        ((pySplitlines b).map stripWs))))).filter (fun p => !p.isEmpty)

/-- `HEADING_MAX_LEN` (line 149). -/
def HEADING_MAX_LEN : Nat := 90

/-- The all-caps rule (lines 156-157): some letter, length at most 90, all
letters uppercase. -/
def allCapsRule (s : List Char) : Bool :=
  !(s.filter isAlphaAZ).isEmpty && decide (s.length ≤ HEADING_MAX_LEN)
    && (s.filter isAlphaAZ).all isUpperAZ

/-- The tail `[.)]\s+\S` shared by the enumerated-heading regex: a dot or
closing parenthesis, at least one whitespace character, then a
non-whitespace character. -/
def checkDotTail : List Char → Bool
  | p :: c :: u =>
    (p == '.' || p == ')') && pyWs c && !((u.dropWhile pyWs).isEmpty)
  | _ => false

/-- `re.match(r"^(\d+|[IVXLC]+|[A-Z])([.)])\s+\S", s)` (line 160).  In each
alternative only the maximal token run can be followed by `[.)]`, since a
shorter run would leave a token character where `[.)]` is required, so the
backtracking search reduces to the three maximal-munch cases below. -/
def rule2 (s : List Char) : Bool :=
  if !(s.takeWhile isDigit09).isEmpty then checkDotTail (s.dropWhile isDigit09)
  else
    (!(s.takeWhile isRomanChar).isEmpty && checkDotTail (s.dropWhile isRomanChar))
    || (match s with
        | c :: rest => isUpperAZ c && checkDotTail rest
        | [] => false)

/-- Scanner for the part of `^\d+(?:\.\d+)*\s+\S` after its first digit.
`inRun` is true inside a digit run (where a dot, more digits or the final
whitespace may follow) and false right after a dot (where a digit must
follow). -/
def r3scan (inRun : Bool) : List Char → Bool
  | [] => false
  | c :: r =>
    if isDigit09 c then r3scan true r
    else if inRun then
      if c = '.' then r3scan false r
      else if pyWs c then !((r.dropWhile pyWs).isEmpty)
      else false
    else false

/-- `re.match(r"^\d+(?:\.\d+)*\s+\S", s)` (line 162). -/
def rule3 : List Char → Bool
  | [] => false
  | c :: r => isDigit09 c && r3scan true r

/-- Models Python `int(0.6 * n)` for the only arguments the code supplies,
`1 ≤ n ≤ 12`.  Under IEEE-754 binary64 the literal `0.6` is
`5404319552844595 / 2^53`; for every `n` in this range the rounded product
`fl(n * fl(0.6))` has floor `3 * n / 5` (the near-integer cases `n = 5` and
`n = 10` round up to exactly `3.0` and `6.0`). -/
def intFloat06 (n : Nat) : Nat := 3 * n / 5

/-- Does a word start with an ASCII uppercase letter
(`re.match(r"^[A-Z]", w)`, line 167)? -/
def startsUpperAZ : List Char → Bool
  | c :: _ => isUpperAZ c
  | [] => false

/-- The title-case rule (lines 164-169): 1 to 12 words, of which at least
`max(2, int(0.6 * word_count))` start with an uppercase letter. -/
def titleRule (s : List Char) : Bool :=
  let ws := pySplitWs s
  if 1 ≤ ws.length ∧ ws.length ≤ 12 then
    decide (max 2 (intFloat06 ws.length) ≤ (ws.filter startsUpperAZ).length)
  else false

/-- `is_heading` (lines 151-170): strip, then try the all-caps, enumerated,
decimal-numbered and title-case rules in order. -/
def is_heading (line : List Char) : Bool :=
  let s := stripWs line
  if s.isEmpty then false
  else if allCapsRule s then true
  else if rule2 s then true
  else if rule3 s then true
  else titleRule s

/-- A section record: `{"heading": ..., "paragraphs": [...]}`. -/
structure Section where
  heading : Option (List Char)
  paragraphs : List (List Char)
deriving DecidableEq

/-- Python truthiness of the heading slot: `None` and the empty string are
falsy. -/
def truthyHeading : Option (List Char) → Bool
  | none => false
  | some h => !h.isEmpty

/-- The emptiness test `current_section["heading"] or
current_section["paragraphs"]` (lines 206 and 219). -/
def keepSection (s : Section) : Bool :=
  truthyHeading s.heading || !s.paragraphs.isEmpty

/-- Worker for `blocksOf`; `cur` is the block being accumulated. -/
def groupBlocksAux (cur : List (List Char)) :
    List (List Char) → List (List (List Char))
  | [] => if cur.isEmpty then [] else [cur]
  | ln :: rest =>
    if (stripWs ln).isEmpty then
      if cur.isEmpty then groupBlocksAux [] rest
      else cur :: groupBlocksAux [] rest
    else groupBlocksAux (cur ++ [ln]) rest

/-- Lines 185-197: split into rstripped lines, then group maximal runs of
non-blank lines into blocks. -/
def blocksOf (text : List Char) : List (List (List Char)) :=
  groupBlocksAux [] ((pySplitlines text).map rstripWs)

/-- The block loop of `build_sections` (lines 199-220): `acc` holds the
emitted sections, `cur` the open section; the final open section is
appended under the same emptiness test as a heading transition. -/
def segLoop (acc : List Section) (cur : Section) :
    List (List (List Char)) → List Section
  | [] => if keepSection cur then acc ++ [cur] else acc
  | block :: rest =>
    let first := stripWs (block.headD [])
    if is_heading first then
      let acc' := if keepSection cur then acc ++ [cur] else acc
      segLoop acc'
        { heading := some (collapseWs first),
          paragraphs := split_paragraphs (List.intercalate ['\n'] (block.drop 1)) }
        rest
    else
      segLoop acc
        { heading :=
            if truthyHeading cur.heading then cur.heading
            else some ("Introduction".data),
          paragraphs :=
            cur.paragraphs ++ split_paragraphs (List.intercalate ['\n'] block) }
        rest

/-- The raw section list before the cleanup pass (lines 185-220). -/
def rawSections (text : List Char) : List Section :=
  segLoop [] { heading := none, paragraphs := [] } (blocksOf text)

/-- Does `re.search` find `tok` at some position with a word boundary
before it and a word character right after it?  `prevW` records whether the
previous character was a word character.  Used for the navigation-crumb
patterns `\bPrevious:\b` and `\bNext:\b`: the token starts with a word
character, so the leading `\b` needs a non-word (or absent) predecessor,
and since the token ends with `':'` the trailing `\b` needs a word
character immediately after the colon. -/
def searchTokAux (tok : List Char) (prevW : Bool) : List Char → Bool
  | [] => false
  | c :: r =>
    (!prevW && tok.isPrefixOf (c :: r)
      && (((c :: r).drop tok.length).head?.any isWordChar))
    || searchTokAux tok (isWordChar c) r

/-- `re.search(r"\b<tok>\b", s)` for a token of word characters followed by
a colon. -/
def searchTokWithWordAfter (tok s : List Char) : Bool := searchTokAux tok false s

/-- The navigation-crumb test (line 229): the heading matches both
`\bPrevious:\b` and `\bNext:\b`. -/
def hasCrumb (h : List Char) : Bool :=
  searchTokWithWordAfter ("Previous:".data) h
    && searchTokWithWordAfter ("Next:".data) h

/-- Case-insensitive prefix test against a lowercase pattern. -/
def ciStartsWith (pat s : List Char) : Bool :=
  (s.take pat.length).map toLowerAZ == pat

/-- Does `\s*\|\s*Last\s+Revision.*$` (case-insensitive) match at the head
of `s`?  Headings are whitespace-collapsed, so they contain no newline and
`.*$` always matches the remainder; the `\s*`/`\s+` gaps reduce to
maximal-munch scans because the following literals start with non-space
characters. -/
def matchRevAt (s : List Char) : Bool :=
  match s.dropWhile pyWs with
  | '|' :: t2 =>
    (ciStartsWith ("last".data) (t2.dropWhile pyWs)) &&
      (let t4 := (t2.dropWhile pyWs).drop 4
       match t4 with
       | c :: _ => pyWs c && ciStartsWith ("revision".data) (t4.dropWhile pyWs)
       | [] => false)
  | _ => false

/-- `re.sub(r"\s*\|\s*Last\s+Revision.*$", "", h, flags=re.I)` (line 233):
delete from the leftmost match position to the end. -/
def revStrip : List Char → List Char
  | [] => []
  | c :: r => if matchRevAt (c :: r) then [] else c :: revStrip r

/-- `w.rstrip(':')`: drop all trailing colons. -/
def rstripColon (w : List Char) : List Char :=
  (w.reverse.dropWhile (fun c => c == ':')).reverse

/-- `str.capitalize()` (ASCII): uppercase the first character, lowercase
the rest. -/
def pyCapitalize : List Char → List Char
  | [] => []
  | c :: r => toUpperAZ c :: r.map toLowerAZ

/-- `re.fullmatch(r"FY\d{2,4}", up)` (line 240). -/
def isFY : List Char → Bool
  | 'F' :: 'Y' :: ds =>
    decide (2 ≤ ds.length) && decide (ds.length ≤ 4) && ds.all isDigit09
  | _ => false

/-- The acronym set whose capitalization is preserved (line 39). -/
def ACRONYMS : List (List Char) :=
  [("HIPAA".data), ("HMIS".data), ("PSH".data), ("HUD".data)]

/-- Per-word heading normalization (lines 237-246): strip trailing colons,
keep `FY`-year tokens and listed acronyms uppercase, otherwise capitalize,
and restore a single trailing colon. -/
def normWord (w : List Char) : List Char :=
  let bare := rstripColon w
  let up := bare.map toUpperAZ
  let nw := if isFY up || ACRONYMS.contains up then up else pyCapitalize bare
  if w.getLast? == some ':' then nw ++ [':'] else nw

/-- The full heading normalization of the cleanup pass on a truthy heading
(lines 227-247): strip, strip revision metadata, normalize each word, join
and re-collapse. -/
def cleanedHeading (h0 : List Char) : List Char :=
  stripWs (collapseWs (List.intercalate [' ']
    ((pySplitWs (revStrip (stripWs h0))).map normWord)))

/-- The cleanup step for one section (lines 224-249): drop navigation
crumbs, normalize truthy headings, then keep the section only if it still
has a truthy heading or a paragraph. -/
def cleanSection (s : Section) : Option Section :=
  match s.heading with
  | some h0 =>
    if h0.isEmpty then
      if s.paragraphs.isEmpty then none else some s
    else if hasCrumb (stripWs h0) then none
    else
      let s' : Section := { heading := some (cleanedHeading h0), paragraphs := s.paragraphs }
      if keepSection s' then some s' else none
  | none => if s.paragraphs.isEmpty then none else some s

/-- The cleanup pass (lines 222-250). -/
def cleanup (l : List Section) : List Section := l.filterMap cleanSection

/-- `build_sections` (lines 184-251): raw segmentation followed by the
cleanup pass. -/
def build_sections (text : List Char) : List Section :=
  cleanup (rawSections text)

/-- No two consecutive whitespace characters. -/
def noTwoWs : List Char → Bool
  | [] => true
  | [_] => true
  | a :: b :: r => !(pyWs a && pyWs b) && noTwoWs (b :: r)

/-- A well-formed paragraph: non-empty, no leading or trailing whitespace,
no newline, and no run of two or more consecutive whitespace characters. -/
def goodPara (p : List Char) : Prop :=
  p ≠ [] ∧ p.head?.any pyWs = false ∧ p.getLast?.any pyWs = false
    ∧ (∀ c ∈ p, c ≠ '\n') ∧ noTwoWs p = true

/-- The binary relation underlying `noTwoWs`: adjacent characters are not
both whitespace. -/
def wsApart (a b : Char) : Prop := pyWs a = false ∨ pyWs b = false

theorem noTwoWs_iff_chain' (p : List Char) :
    noTwoWs p = true ↔ List.Chain' wsApart p := by
  induction p with
  | nil => simp [noTwoWs]
  | cons a r ih =>
    cases r with
    | nil => simp [noTwoWs]
    | cons b r' =>
      rw [List.chain'_cons, ← ih]
      have he : noTwoWs (a :: b :: r') = (!(pyWs a && pyWs b) && noTwoWs (b :: r')) := rfl
      rw [he, Bool.and_eq_true, Bool.not_eq_true']
      constructor
      · rintro ⟨h1, h2⟩
        refine ⟨?_, h2⟩
        cases ha : pyWs a with
        | false => exact Or.inl ha
        | true =>
          cases hb : pyWs b with
          | false => exact Or.inr hb
          | true => rw [ha, hb] at h1; simp at h1
      · rintro ⟨h1, h2⟩
        refine ⟨?_, h2⟩
        rcases h1 with ha | hb
        · rw [ha, Bool.false_and]
        · rw [hb, Bool.and_false]

theorem chain'_dropWhile {R : Char → Char → Prop} {l : List Char}
    (h : List.Chain' R l) (q : Char → Bool) : List.Chain' R (l.dropWhile q) := by
  induction l with
  | nil => simp
  | cons c r ih =>
    rw [List.dropWhile_cons]
    split
    · exact ih h.tail
    · exact h

theorem head?_dropWhile {l : List Char} {q : Char → Bool} {c : Char}
    (h : (l.dropWhile q).head? = some c) : q c = false := by
  induction l with
  | nil => simp at h
  | cons a r ih =>
    rw [List.dropWhile_cons] at h
    split at h
    · exact ih h
    · simp only [List.head?_cons, Option.some.injEq] at h
      subst h
      simpa using ‹¬ q a = true›

theorem getLast?_dropWhile {l : List Char} {q : Char → Bool}
    (h : l.dropWhile q ≠ []) : (l.dropWhile q).getLast? = l.getLast? := by
  induction l with
  | nil => simp at h
  | cons a r ih =>
    rw [List.dropWhile_cons] at h ⊢
    by_cases hq : q a = true
    · rw [if_pos hq] at h ⊢
      rw [ih h]
      cases r with
      | nil => simp [List.dropWhile_nil] at h
      | cons b r' => rw [List.getLast?_cons_cons]
    · rw [if_neg hq]

theorem mem_dropWhile {l : List Char} {q : Char → Bool} {c : Char}
    (h : c ∈ l.dropWhile q) : c ∈ l :=
  (List.dropWhile_sublist q).mem h

theorem mem_stripWs {s : List Char} {c : Char} (h : c ∈ stripWs s) : c ∈ s := by
  unfold stripWs lstripWs rstripWs at h
  have h1 := mem_dropWhile h
  rw [List.mem_reverse] at h1
  have h2 := mem_dropWhile h1
  rwa [List.mem_reverse] at h2

theorem stripWs_head?_not_ws {s : List Char} {c : Char}
    (h : (stripWs s).head? = some c) : pyWs c = false :=
  head?_dropWhile h

theorem stripWs_getLast?_not_ws {s : List Char} {c : Char}
    (h : (stripWs s).getLast? = some c) : pyWs c = false := by
  unfold stripWs lstripWs rstripWs at h
  have hne : (((s.reverse.dropWhile pyWs).reverse).dropWhile pyWs) ≠ [] := by
    intro he
    rw [he] at h
    simp at h
  rw [getLast?_dropWhile hne, List.getLast?_reverse] at h
  exact head?_dropWhile h

theorem noTwoWs_stripWs {s : List Char} (h : noTwoWs s = true) :
    noTwoWs (stripWs s) = true := by
  rw [noTwoWs_iff_chain'] at h ⊢
  unfold stripWs lstripWs rstripWs
  apply chain'_dropWhile
  rw [List.chain'_reverse]
  apply List.Chain'.imp (fun a b (hab : wsApart a b) => hab.symm)
  apply chain'_dropWhile
  rw [List.chain'_reverse]
  exact List.Chain'.imp (fun a b (hab : wsApart a b) => hab.symm) h

theorem collapseAux_cons_ws_true {a : Char} {r : List Char} (ha : pyWs a = true) :
    collapseAux true (a :: r) = collapseAux true r := by
  simp [collapseAux, ha]

theorem collapseAux_cons_ws_false {a : Char} {r : List Char} (ha : pyWs a = true) :
    collapseAux false (a :: r) = ' ' :: collapseAux true r := by
  simp [collapseAux, ha]

theorem collapseAux_cons_not_ws {b : Bool} {a : Char} {r : List Char}
    (ha : pyWs a = false) : collapseAux b (a :: r) = a :: collapseAux false r := by
  simp [collapseAux, ha]

theorem mem_collapseAux_ws_eq_space :
    ∀ (s : List Char) (b : Bool) (c : Char),
      c ∈ collapseAux b s → pyWs c = true → c = ' ' := by
  intro s
  induction s with
  | nil => intro b c hc; simp [collapseAux] at hc
  | cons a r ih =>
    intro b c hc hw
    by_cases ha : pyWs a = true
    · cases b with
      | true =>
        rw [collapseAux_cons_ws_true ha] at hc
        exact ih true c hc hw
      | false =>
        rw [collapseAux_cons_ws_false ha] at hc
        rcases List.mem_cons.mp hc with rfl | hc
        · rfl
        · exact ih true c hc hw
    · rw [collapseAux_cons_not_ws (Bool.not_eq_true _ ▸ ha : pyWs a = false)] at hc
      rcases List.mem_cons.mp hc with rfl | hc
      · exact absurd hw (by simpa using ha)
      · exact ih false c hc hw

theorem head?_collapseAux_true :
    ∀ {s : List Char} {c : Char},
      (collapseAux true s).head? = some c → pyWs c = false := by
  intro s
  induction s with
  | nil => intro c h; simp [collapseAux] at h
  | cons a r ih =>
    intro c h
    by_cases ha : pyWs a = true
    · rw [collapseAux_cons_ws_true ha] at h
      exact ih h
    · rw [collapseAux_cons_not_ws (Bool.not_eq_true _ ▸ ha : pyWs a = false)] at h
      simp only [List.head?_cons, Option.some.injEq] at h
      subst h
      simpa using ha

theorem chain'_collapseAux : ∀ (s : List Char) (b : Bool),
    List.Chain' wsApart (collapseAux b s) := by
  intro s
  induction s with
  | nil => intro b; simp [collapseAux]
  | cons a r ih =>
    intro b
    by_cases ha : pyWs a = true
    · cases b with
      | true => rw [collapseAux_cons_ws_true ha]; exact ih true
      | false =>
        rw [collapseAux_cons_ws_false ha]
        rw [List.chain'_cons']
        refine ⟨?_, ih true⟩
        intro y hy
        exact Or.inr (head?_collapseAux_true hy)
    · rw [collapseAux_cons_not_ws (Bool.not_eq_true _ ▸ ha : pyWs a = false)]
      rw [List.chain'_cons']
      refine ⟨fun y _ => Or.inl (by simpa using ha), ih false⟩

theorem goodPara_strip_collapse {x : List Char}
    (h : stripWs (collapseWs x) ≠ []) : goodPara (stripWs (collapseWs x)) := by
  refine ⟨h, ?_, ?_, ?_, ?_⟩
  · cases hh : (stripWs (collapseWs x)).head? with
    | none => rfl
    | some c => simpa using stripWs_head?_not_ws hh
  · cases hh : (stripWs (collapseWs x)).getLast? with
    | none => rfl
    | some c => simpa using stripWs_getLast?_not_ws hh
  · intro c hc
    intro he
    subst he
    have hc' := mem_stripWs hc
    have := mem_collapseAux_ws_eq_space x false '\n' hc' (by decide)
    simp at this
  · apply noTwoWs_stripWs
    rw [noTwoWs_iff_chain']
    exact chain'_collapseAux x false

theorem split_paragraphs_goodPara {t p : List Char}
    (h : p ∈ split_paragraphs t) : goodPara p := by
  unfold split_paragraphs at h
  rw [List.mem_filter] at h
  obtain ⟨hmem, hne⟩ := h
  rw [List.mem_map] at hmem
  obtain ⟨b, _, rfl⟩ := hmem
  apply goodPara_strip_collapse
  simpa using hne

theorem segLoop_nil (acc : List Section) (cur : Section) :
    segLoop acc cur [] = if keepSection cur then acc ++ [cur] else acc := rfl

theorem segLoop_cons (acc : List Section) (cur : Section)
    (b : List (List Char)) (rest : List (List (List Char))) :
    segLoop acc cur (b :: rest) =
      if is_heading (stripWs (b.headD [])) then
        segLoop (if keepSection cur then acc ++ [cur] else acc)
          { heading := some (collapseWs (stripWs (b.headD []))),
            paragraphs := split_paragraphs (List.intercalate ['\n'] (b.drop 1)) }
          rest
      else
        segLoop acc
          { heading :=
              if truthyHeading cur.heading then cur.heading
              else some ("Introduction".data),
            paragraphs :=
              cur.paragraphs ++ split_paragraphs (List.intercalate ['\n'] b) }
          rest := rfl

theorem segLoop_append :
    ∀ (bs : List (List (List Char))) (acc : List Section) (cur : Section),
      segLoop acc cur bs = acc ++ segLoop [] cur bs := by
  intro bs
  induction bs with
  | nil =>
    intro acc cur
    rw [segLoop_nil, segLoop_nil]
    by_cases h : keepSection cur = true
    · rw [if_pos h, if_pos h]; simp
    · rw [if_neg h, if_neg h]; simp
  | cons b rest ih =>
    intro acc cur
    rw [segLoop_cons, segLoop_cons]
    by_cases h : is_heading (stripWs (b.headD [])) = true
    · rw [if_pos h, if_pos h]
      by_cases hk : keepSection cur = true
      · rw [if_pos hk, if_pos hk]
        simp only [List.nil_append]
        rw [ih, ih [cur], List.append_assoc]
      · rw [if_neg hk, if_neg hk, ih]
    · rw [if_neg h, if_neg h, ih]

/-- Every paragraph of a section is a well-formed paragraph. -/
def paragraphsOK (s : Section) : Prop := ∀ p ∈ s.paragraphs, goodPara p

theorem segLoop_paragraphsOK :
    ∀ (bs : List (List (List Char))) (acc : List Section) (cur : Section),
      (∀ s ∈ acc, paragraphsOK s) → paragraphsOK cur →
      ∀ s ∈ segLoop acc cur bs, paragraphsOK s := by
  intro bs
  induction bs with
  | nil =>
    intro acc cur hacc hcur s hs
    rw [segLoop_nil] at hs
    split at hs
    · rcases List.mem_append.mp hs with h | h
      · exact hacc s h
      · rw [List.mem_singleton] at h; subst h; exact hcur
    · exact hacc s hs
  | cons b rest ih =>
    intro acc cur hacc hcur s hs
    rw [segLoop_cons] at hs
    split at hs
    · refine ih _ _ ?_ ?_ s hs
      · intro s' hs'
        split at hs'
        · rcases List.mem_append.mp hs' with h | h
          · exact hacc s' h
          · rw [List.mem_singleton] at h; subst h; exact hcur
        · exact hacc s' hs'
      · intro p hp
        exact split_paragraphs_goodPara hp
    · refine ih _ _ hacc ?_ s hs
      intro p hp
      rcases List.mem_append.mp hp with h | h
      · exact hcur p h
      · exact split_paragraphs_goodPara h

theorem rawSections_paragraphsOK (t : List Char) :
    ∀ s ∈ rawSections t, paragraphsOK s := by
  intro s hs
  exact segLoop_paragraphsOK (blocksOf t) [] _ (by simp) (by simp [paragraphsOK]) s hs

theorem cleanSection_none_eq (ps : List (List Char)) :
    cleanSection ⟨none, ps⟩ = if ps.isEmpty then none else some ⟨none, ps⟩ := rfl

theorem cleanSection_someH_eq (h0 : List Char) (ps : List (List Char)) :
    cleanSection ⟨some h0, ps⟩ =
      if h0.isEmpty then (if ps.isEmpty then none else some ⟨some h0, ps⟩)
      else if hasCrumb (stripWs h0) then none
      else if keepSection ⟨some (cleanedHeading h0), ps⟩ then
        some ⟨some (cleanedHeading h0), ps⟩
      else none := rfl

theorem cleanSection_some {s₀ s : Section} (h : cleanSection s₀ = some s) :
    s.paragraphs = s₀.paragraphs ∧
      (truthyHeading s.heading = true ∨ s.paragraphs ≠ []) := by
  obtain ⟨oh, ps⟩ := s₀
  cases oh with
  | none =>
    rw [cleanSection_none_eq] at h
    split at h
    · exact absurd h (by simp)
    · rw [Option.some.injEq] at h
      subst h
      exact ⟨rfl, Or.inr (by simpa using ‹¬ ps.isEmpty = true›)⟩
  | some h0 =>
    rw [cleanSection_someH_eq] at h
    split at h
    · split at h
      · exact absurd h (by simp)
      · rw [Option.some.injEq] at h
        subst h
        exact ⟨rfl, Or.inr (by simpa using ‹¬ ps.isEmpty = true›)⟩
    · split at h
      · exact absurd h (by simp)
      · split at h
        · rw [Option.some.injEq] at h
          subst h
          refine ⟨rfl, ?_⟩
          have hk : keepSection ⟨some (cleanedHeading h0), ps⟩ = true := ‹_›
          unfold keepSection at hk
          rw [Bool.or_eq_true] at hk
          rcases hk with hk | hk
          · exact Or.inl hk
          · exact Or.inr (by simpa using hk)
        · exact absurd h (by simp)

theorem mem_build_sections {t : List Char} {s : Section}
    (h : s ∈ build_sections t) :
    ∃ s₀, s₀ ∈ rawSections t ∧ cleanSection s₀ = some s := by
  unfold build_sections cleanup at h
  rw [List.mem_filterMap] at h
  exact h

/-- The whitespace-collapsed first lines of the heading-start blocks, in
source order. -/
def headFirsts (bs : List (List (List Char))) : List (List Char) :=
  (bs.filter (fun b => is_heading (stripWs (b.headD [])))).map
    (fun b => collapseWs (stripWs (b.headD [])))

/-- Worker for `rawHeadingLines`, on the block list. -/
def rawHeadingLinesB : List (List (List Char)) → List (List Char)
  | [] => []
  | b :: bs =>
    if is_heading (stripWs (b.headD [])) then headFirsts (b :: bs)
    else ("Introduction".data) :: headFirsts (b :: bs)

/-- The raw heading strings of `rawSections`, in order: a leading
`"Introduction"` when the input starts with a continuation block, then the
collapsed first lines of the heading-start blocks. -/
def rawHeadingLines (text : List Char) : List (List Char) :=
  rawHeadingLinesB (blocksOf text)

theorem rawHeadingLinesB_cons (b : List (List Char)) (bs : List (List (List Char))) :
    rawHeadingLinesB (b :: bs) =
      if is_heading (stripWs (b.headD [])) then headFirsts (b :: bs)
      else ("Introduction".data) :: headFirsts (b :: bs) := rfl

theorem headFirsts_cons_pos {b : List (List Char)} {bs : List (List (List Char))}
    (h : is_heading (stripWs (b.headD [])) = true) :
    headFirsts (b :: bs) = collapseWs (stripWs (b.headD [])) :: headFirsts bs := by
  unfold headFirsts
  rw [List.filter_cons, if_pos h, List.map_cons]

theorem headFirsts_cons_neg {b : List (List Char)} {bs : List (List (List Char))}
    (h : is_heading (stripWs (b.headD [])) = false) :
    headFirsts (b :: bs) = headFirsts bs := by
  unfold headFirsts
  rw [List.filter_cons, if_neg (by rw [h]; exact Bool.false_ne_true)]

theorem is_heading_eq (line : List Char) :
    is_heading line =
      if (stripWs line).isEmpty then false
      else if allCapsRule (stripWs line) then true
      else if rule2 (stripWs line) then true
      else if rule3 (stripWs line) then true
      else titleRule (stripWs line) := rfl

theorem is_heading_strip_ne_nil {x : List Char} (h : is_heading x = true) :
    stripWs x ≠ [] := by
  intro he
  rw [is_heading_eq, he] at h
  simp at h

theorem collapseWs_ne_nil {s : List Char} (h : s ≠ []) : collapseWs s ≠ [] := by
  cases s with
  | nil => exact absurd rfl h
  | cons c r =>
    unfold collapseWs
    by_cases hc : pyWs c = true
    · rw [collapseAux_cons_ws_false hc]; simp
    · rw [collapseAux_cons_not_ws (Bool.not_eq_true _ ▸ hc : pyWs c = false)]; simp

theorem truthy_heading_block {b : List (List Char)}
    (h : is_heading (stripWs (b.headD [])) = true) :
    truthyHeading (some (collapseWs (stripWs (b.headD [])))) = true := by
  have h1 : stripWs (stripWs (b.headD [])) ≠ [] := is_heading_strip_ne_nil h
  have h2 : stripWs (b.headD []) ≠ [] := by
    intro he
    rw [he] at h1
    exact h1 rfl
  have h3 := collapseWs_ne_nil h2
  unfold truthyHeading
  simpa using h3

theorem segLoop_map_heading :
    ∀ (bs : List (List (List Char))) (cur : Section),
      truthyHeading cur.heading = true →
      (segLoop [] cur bs).map Section.heading =
        cur.heading :: (headFirsts bs).map some := by
  intro bs
  induction bs with
  | nil =>
    intro cur hcur
    rw [segLoop_nil,
      if_pos (show keepSection cur = true by unfold keepSection; rw [hcur]; rfl)]
    simp [headFirsts]
  | cons b rest ih =>
    intro cur hcur
    rw [segLoop_cons]
    by_cases h : is_heading (stripWs (b.headD [])) = true
    · rw [if_pos h,
        if_pos (show keepSection cur = true by unfold keepSection; rw [hcur]; rfl)]
      simp only [List.nil_append]
      rw [segLoop_append rest [cur], List.map_append,
        ih _ (truthy_heading_block h), headFirsts_cons_pos h]
      simp
    · rw [if_neg h]
      rw [ih _ (by rw [if_pos hcur]; exact hcur)]
      rw [headFirsts_cons_neg (Bool.not_eq_true _ ▸ h)]
      rw [if_pos hcur]

theorem rawSections_map_heading (t : List Char) :
    (rawSections t).map Section.heading = (rawHeadingLines t).map some := by
  unfold rawSections rawHeadingLines
  cases hb : blocksOf t with
  | nil => rfl
  | cons b bs =>
    rw [rawHeadingLinesB_cons, segLoop_cons]
    by_cases h : is_heading (stripWs (b.headD [])) = true
    · rw [if_pos h, if_pos h,
        if_neg (show ¬ keepSection ⟨none, []⟩ = true by decide)]
      rw [segLoop_map_heading _ _ (truthy_heading_block h), headFirsts_cons_pos h,
        List.map_cons]
    · rw [if_neg h, if_neg h]
      rw [segLoop_map_heading _
          { heading :=
              if truthyHeading (⟨none, []⟩ : Section).heading then
                (⟨none, []⟩ : Section).heading
              else some ("Introduction".data),
            paragraphs :=
              (⟨none, []⟩ : Section).paragraphs ++
                split_paragraphs (List.intercalate ['\n'] b) }
          (by rfl),
        headFirsts_cons_neg (Bool.not_eq_true _ ▸ h)]
      rfl

theorem cleanSection_heading_shape (h0 : List Char) (ps : List (List Char)) :
    cleanSection ⟨some h0, ps⟩ = none ∨
      cleanSection ⟨some h0, ps⟩ = some ⟨some (cleanedHeading h0), ps⟩ := by
  rw [cleanSection_someH_eq]
  by_cases he : h0.isEmpty = true
  · rw [if_pos he]
    by_cases hp : ps.isEmpty = true
    · rw [if_pos hp]; exact Or.inl rfl
    · rw [if_neg hp]
      right
      have h0e : h0 = [] := by simpa using he
      subst h0e
      rfl
  · rw [if_neg he]
    by_cases hc : hasCrumb (stripWs h0) = true
    · rw [if_pos hc]; exact Or.inl rfl
    · rw [if_neg hc]
      by_cases hk : keepSection ⟨some (cleanedHeading h0), ps⟩ = true
      · rw [if_pos hk]; exact Or.inr rfl
      · rw [if_neg hk]; exact Or.inl rfl

theorem cleanup_headings_sublist :
    ∀ (l : List Section) (hs : List (List Char)),
      l.map Section.heading = hs.map some →
      ((cleanup l).map Section.heading).Sublist
        (hs.map (fun h => some (cleanedHeading h))) := by
  intro l
  induction l with
  | nil => intro hs h; simp [cleanup]
  | cons s l' ih =>
    intro hs h
    cases hs with
    | nil => simp at h
    | cons h0 hs' =>
      simp only [List.map_cons, List.cons.injEq] at h
      obtain ⟨h1, h2⟩ := h
      obtain ⟨oh, ps⟩ := s
      have h1' : oh = some h0 := h1
      subst h1'
      unfold cleanup
      rw [List.filterMap_cons]
      rcases cleanSection_heading_shape h0 ps with hnone | hsome
      · rw [hnone]
        exact (ih hs' h2).cons _
      · rw [hsome]
        simp only [List.map_cons]
        exact (ih hs' h2).cons₂ _

theorem groupBlocksAux_nil (cur : List (List Char)) :
    groupBlocksAux cur [] = if cur.isEmpty then [] else [cur] := rfl

theorem groupBlocksAux_cons (cur : List (List Char)) (ln : List Char)
    (rest : List (List Char)) :
    groupBlocksAux cur (ln :: rest) =
      if (stripWs ln).isEmpty then
        if cur.isEmpty then groupBlocksAux [] rest
        else cur :: groupBlocksAux [] rest
      else groupBlocksAux (cur ++ [ln]) rest := rfl

theorem groupBlocksAux_wf :
    ∀ (lines : List (List Char)) (cur : List (List Char)),
      (∀ l ∈ cur, stripWs l ≠ []) →
      ∀ blk ∈ groupBlocksAux cur lines, blk ≠ [] ∧ ∀ ln ∈ blk, stripWs ln ≠ [] := by
  intro lines
  induction lines with
  | nil =>
    intro cur hcur blk hblk
    rw [groupBlocksAux_nil] at hblk
    split at hblk
    · simp at hblk
    · rw [List.mem_singleton] at hblk
      subst hblk
      exact ⟨by simpa using ‹¬ blk.isEmpty = true›, hcur⟩
  | cons ln rest ih =>
    intro cur hcur blk hblk
    rw [groupBlocksAux_cons] at hblk
    by_cases hb1 : (stripWs ln).isEmpty = true
    · rw [if_pos hb1] at hblk
      by_cases hb2 : cur.isEmpty = true
      · rw [if_pos hb2] at hblk
        exact ih [] (by simp) blk hblk
      · rw [if_neg hb2] at hblk
        rcases List.mem_cons.mp hblk with rfl | hblk
        · exact ⟨by simpa using hb2, hcur⟩
        · exact ih [] (by simp) blk hblk
    · rw [if_neg hb1] at hblk
      refine ih (cur ++ [ln]) ?_ blk hblk
      intro l hl
      rcases List.mem_append.mp hl with hl | hl
      · exact hcur l hl
      · rw [List.mem_singleton] at hl
        subst hl
        simpa using hb1

theorem blocksOf_wf {t : List Char} {blk : List (List Char)}
    (h : blk ∈ blocksOf t) : blk ≠ [] ∧ ∀ ln ∈ blk, stripWs ln ≠ [] :=
  groupBlocksAux_wf _ [] (by simp) blk h

theorem mem_dropWhile_of_not_ws {l : List Char} {c : Char}
    (hc : c ∈ l) (hw : pyWs c = false) : c ∈ l.dropWhile pyWs := by
  induction l with
  | nil => simp at hc
  | cons a r ih =>
    rw [List.dropWhile_cons]
    by_cases ha : pyWs a = true
    · rw [if_pos ha]
      rcases List.mem_cons.mp hc with rfl | hc
      · rw [ha] at hw; exact absurd hw (by simp)
      · exact ih hc
    · rw [if_neg ha]
      exact hc

theorem mem_stripWs_of_not_ws {s : List Char} {c : Char}
    (hc : c ∈ s) (hw : pyWs c = false) : c ∈ stripWs s := by
  unfold stripWs lstripWs rstripWs
  apply mem_dropWhile_of_not_ws _ hw
  rw [List.mem_reverse]
  apply mem_dropWhile_of_not_ws _ hw
  rwa [List.mem_reverse]

theorem stripWs_ne_nil_of_ink {s : List Char} {c : Char}
    (hc : c ∈ s) (hw : pyWs c = false) : stripWs s ≠ [] :=
  List.ne_nil_of_mem (mem_stripWs_of_not_ws hc hw)

theorem ink_of_stripWs_ne_nil {s : List Char} (h : stripWs s ≠ []) :
    ∃ c ∈ s, pyWs c = false := by
  by_contra hall
  push_neg at hall
  apply h
  unfold stripWs lstripWs rstripWs
  rw [List.dropWhile_eq_nil_iff]
  intro x hx
  rw [List.mem_reverse] at hx
  have hx' := mem_dropWhile hx
  rw [List.mem_reverse] at hx'
  have := hall x hx'
  simpa using this

theorem mem_collapseAux_of_not_ws :
    ∀ (s : List Char) (b : Bool) {c : Char},
      c ∈ s → pyWs c = false → c ∈ collapseAux b s := by
  intro s
  induction s with
  | nil => intro b c hc; simp at hc
  | cons a r ih =>
    intro b c hc hw
    by_cases ha : pyWs a = true
    · have hcr : c ∈ r := by
        rcases List.mem_cons.mp hc with rfl | hc
        · rw [ha] at hw; exact absurd hw (by simp)
        · exact hc
      cases b with
      | true =>
        rw [collapseAux_cons_ws_true ha]
        exact ih true hcr hw
      | false =>
        rw [collapseAux_cons_ws_false ha]
        exact List.mem_cons_of_mem _ (ih true hcr hw)
    · rw [collapseAux_cons_not_ws (Bool.not_eq_true _ ▸ ha : pyWs a = false)]
      rcases List.mem_cons.mp hc with rfl | hc
      · exact List.mem_cons_self _ _
      · exact List.mem_cons_of_mem _ (ih false hc hw)

theorem intercalate_cons_two (sep x y : List Char) (zs : List (List Char)) :
    sep.intercalate (x :: y :: zs) = x ++ sep ++ sep.intercalate (y :: zs) := by
  simp [List.intercalate, List.intersperse]

theorem mem_intercalate_of_mem {sep : List Char} {x : List Char}
    {L : List (List Char)} (hx : x ∈ L) {c : Char} (hc : c ∈ x) :
    c ∈ List.intercalate sep L := by
  induction L with
  | nil => simp at hx
  | cons y L' ih =>
    cases L' with
    | nil =>
      rw [List.mem_singleton] at hx
      subst hx
      simpa [List.intercalate] using hc
    | cons z L'' =>
      rcases List.mem_cons.mp hx with rfl | hx
      · rw [intercalate_cons_two]
        exact List.mem_append.mpr (Or.inl (List.mem_append.mpr (Or.inl hc)))
      · rw [intercalate_cons_two, List.append_assoc]
        exact List.mem_append.mpr (Or.inr (List.mem_append.mpr (Or.inr (ih hx))))

theorem splitlinesAux_cons (acc : List Char) (a : Char) (r : List Char) :
    splitlinesAux acc (a :: r) =
      if a = '\n' then
        acc.reverse :: (if r.isEmpty then [] else splitlinesAux [] r)
      else splitlinesAux (a :: acc) r := rfl

theorem splitlinesAux_mem :
    ∀ (s acc : List Char) {c : Char},
      (c ∈ s ∨ c ∈ acc) → c ≠ '\n' →
      ∃ ln ∈ splitlinesAux acc s, c ∈ ln := by
  intro s
  induction s with
  | nil =>
    intro acc c hc hnl
    refine ⟨acc.reverse, by simp [splitlinesAux], ?_⟩
    rw [List.mem_reverse]
    rcases hc with hc | hc
    · simp at hc
    · exact hc
  | cons a r ih =>
    intro acc c hc hnl
    rw [splitlinesAux_cons]
    by_cases ha : a = '\n'
    · rw [if_pos ha]
      rcases hc with hc | hc
      · rcases List.mem_cons.mp hc with rfl | hc
        · exact absurd ha hnl
        · have hr : ¬ r.isEmpty = true := by
            intro he
            rw [List.isEmpty_iff] at he
            rw [he] at hc
            simp at hc
          rw [if_neg hr]
          obtain ⟨ln, hln, hcln⟩ := ih [] (Or.inl hc) hnl
          exact ⟨ln, List.mem_cons_of_mem _ hln, hcln⟩
      · exact ⟨acc.reverse, List.mem_cons_self _ _, List.mem_reverse.mpr hc⟩
    · rw [if_neg ha]
      apply ih (a :: acc) _ hnl
      rcases hc with hc | hc
      · rcases List.mem_cons.mp hc with rfl | hc
        · exact Or.inr (List.mem_cons_self _ _)
        · exact Or.inl hc
      · exact Or.inr (List.mem_cons_of_mem _ hc)

theorem pySplitlines_mem {b : List Char} {c : Char} (hc : c ∈ b)
    (hnl : c ≠ '\n') : ∃ ln ∈ pySplitlines b, c ∈ ln := by
  unfold pySplitlines
  have hb : ¬ b.isEmpty = true := by
    intro he
    rw [List.isEmpty_iff] at he
    rw [he] at hc
    simp at hc
  rw [if_neg hb]
  exact splitlinesAux_mem b [] (Or.inl hc) hnl

theorem splitBlankAux_nil_none (chunk : List Char) :
    splitBlankAux chunk none [] = [chunk.reverse] := rfl

theorem splitBlankAux_nil_some (chunk buf : List Char) :
    splitBlankAux chunk (some buf) [] =
      if 2 ≤ buf.count '\n' then
        [chunk.reverse, (buf.takeWhile (fun c => c != '\n')).reverse]
      else [(buf ++ chunk).reverse] := rfl

theorem splitBlankAux_cons_none (chunk : List Char) (a : Char) (r : List Char) :
    splitBlankAux chunk none (a :: r) =
      if a = '\n' then splitBlankAux chunk (some ['\n']) r
      else splitBlankAux (a :: chunk) none r := rfl

theorem splitBlankAux_cons_some (chunk buf : List Char) (a : Char) (r : List Char) :
    splitBlankAux chunk (some buf) (a :: r) =
      if pyWs a then splitBlankAux chunk (some (a :: buf)) r
      else if 2 ≤ buf.count '\n' then
        chunk.reverse :: splitBlankAux (a :: buf.takeWhile (fun c => c != '\n')) none r
      else splitBlankAux (a :: (buf ++ chunk)) none r := rfl

theorem splitBlankAux_ink :
    ∀ (s chunk : List Char) (pend : Option (List Char)),
      ((∃ c ∈ chunk, pyWs c = false) ∨ (∃ c ∈ s, pyWs c = false)) →
      ∃ k ∈ splitBlankAux chunk pend s, ∃ c ∈ k, pyWs c = false := by
  intro s
  induction s with
  | nil =>
    intro chunk pend hink
    have hc : ∃ c ∈ chunk, pyWs c = false := by
      rcases hink with h | h
      · exact h
      · obtain ⟨c, hc, _⟩ := h
        simp at hc
    obtain ⟨c, hcm, hcw⟩ := hc
    cases pend with
    | none =>
      exact ⟨chunk.reverse, by rw [splitBlankAux_nil_none]; simp,
        c, List.mem_reverse.mpr hcm, hcw⟩
    | some buf =>
      rw [splitBlankAux_nil_some]
      by_cases h2 : 2 ≤ buf.count '\n'
      · rw [if_pos h2]
        exact ⟨chunk.reverse, List.mem_cons_self _ _, c, List.mem_reverse.mpr hcm, hcw⟩
      · rw [if_neg h2]
        refine ⟨(buf ++ chunk).reverse, List.mem_singleton.mpr rfl, c, ?_, hcw⟩
        rw [List.mem_reverse]
        exact List.mem_append.mpr (Or.inr hcm)
  | cons a r ih =>
    intro chunk pend hink
    cases pend with
    | none =>
      rw [splitBlankAux_cons_none]
      by_cases ha : a = '\n'
      · rw [if_pos ha]
        apply ih chunk (some ['\n'])
        rcases hink with h | h
        · exact Or.inl h
        · obtain ⟨c, hc, hw⟩ := h
          rcases List.mem_cons.mp hc with rfl | hc
          · rw [ha] at hw; simp [pyWs] at hw
          · exact Or.inr ⟨c, hc, hw⟩
      · rw [if_neg ha]
        apply ih (a :: chunk) none
        rcases hink with h | h
        · obtain ⟨c, hc, hw⟩ := h
          exact Or.inl ⟨c, List.mem_cons_of_mem _ hc, hw⟩
        · obtain ⟨c, hc, hw⟩ := h
          rcases List.mem_cons.mp hc with rfl | hc
          · exact Or.inl ⟨c, List.mem_cons_self _ _, hw⟩
          · exact Or.inr ⟨c, hc, hw⟩
    | some buf =>
      rw [splitBlankAux_cons_some]
      by_cases ha : pyWs a = true
      · rw [if_pos ha]
        apply ih chunk (some (a :: buf))
        rcases hink with h | h
        · exact Or.inl h
        · obtain ⟨c, hc, hw⟩ := h
          rcases List.mem_cons.mp hc with rfl | hc
          · rw [ha] at hw; exact absurd hw (by simp)
          · exact Or.inr ⟨c, hc, hw⟩
      · have ha' : pyWs a = false := Bool.not_eq_true _ ▸ ha
        rw [if_neg ha]
        by_cases h2 : 2 ≤ buf.count '\n'
        · rw [if_pos h2]
          obtain ⟨k, hk, hkink⟩ :=
            ih (a :: buf.takeWhile (fun c => c != '\n')) none
              (Or.inl ⟨a, List.mem_cons_self _ _, ha'⟩)
          exact ⟨k, List.mem_cons_of_mem _ hk, hkink⟩
        · rw [if_neg h2]
          exact ih (a :: (buf ++ chunk)) none
            (Or.inl ⟨a, List.mem_cons_self _ _, ha'⟩)

theorem pyReSplitBlank_ink {s : List Char} {c : Char} (hc : c ∈ s)
    (hw : pyWs c = false) :
    ∃ k ∈ pyReSplitBlank s, ∃ d ∈ k, pyWs d = false :=
  splitBlankAux_ink s [] none (Or.inr ⟨c, hc, hw⟩)

theorem split_paragraphs_ne_nil_of_ink {x : List Char} {c : Char}
    (hc : c ∈ x) (hw : pyWs c = false) : split_paragraphs x ≠ [] := by
  have hc1 : c ∈ stripWs x := mem_stripWs_of_not_ws hc hw
  obtain ⟨k, hk, d, hdk, hdw⟩ := pyReSplitBlank_ink hc1 hw
  apply List.ne_nil_of_mem (a :=
    stripWs (collapseWs (List.intercalate [' '] ((pySplitlines k).map stripWs))))
  unfold split_paragraphs
  rw [List.mem_filter]
  constructor
  · exact List.mem_map.mpr ⟨k, hk, rfl⟩
  · have hdnl : d ≠ '\n' := by
      intro he
      rw [he] at hdw
      simp [pyWs] at hdw
    obtain ⟨ln, hln, hdln⟩ := pySplitlines_mem hdk hdnl
    have h3 : d ∈ stripWs ln := mem_stripWs_of_not_ws hdln hdw
    have h4 : d ∈ List.intercalate [' '] ((pySplitlines k).map stripWs) :=
      mem_intercalate_of_mem (List.mem_map.mpr ⟨ln, hln, rfl⟩) h3
    have h5 : d ∈ collapseWs (List.intercalate [' '] ((pySplitlines k).map stripWs)) :=
      mem_collapseAux_of_not_ws _ false h4 hdw
    have h6 := mem_stripWs_of_not_ws h5 hdw
    simpa using List.ne_nil_of_mem h6

theorem segLoop_head_of_truthy :
    ∀ (bs : List (List (List Char))) (cur : Section),
      truthyHeading cur.heading = true →
      ∃ ps' tl, segLoop [] cur bs =
        (⟨cur.heading, cur.paragraphs ++ ps'⟩ : Section) :: tl := by
  intro bs
  induction bs with
  | nil =>
    intro cur hcur
    refine ⟨[], [], ?_⟩
    rw [segLoop_nil,
      if_pos (show keepSection cur = true by unfold keepSection; rw [hcur]; rfl)]
    simp
  | cons b rest ih =>
    intro cur hcur
    rw [segLoop_cons]
    by_cases h : is_heading (stripWs (b.headD [])) = true
    · rw [if_pos h,
        if_pos (show keepSection cur = true by unfold keepSection; rw [hcur]; rfl)]
      simp only [List.nil_append]
      rw [segLoop_append rest [cur]]
      refine ⟨[], segLoop []
          { heading := some (collapseWs (stripWs (b.headD []))),
            paragraphs := split_paragraphs (List.intercalate ['\n'] (b.drop 1)) }
          rest, ?_⟩
      simp
    · rw [if_neg h]
      obtain ⟨ps2, tl, he⟩ := ih
        { heading :=
            if truthyHeading cur.heading then cur.heading
            else some ("Introduction".data),
          paragraphs :=
            cur.paragraphs ++ split_paragraphs (List.intercalate ['\n'] b) }
        (by rw [if_pos hcur]; exact hcur)
      rw [he]
      refine ⟨split_paragraphs (List.intercalate ['\n'] b) ++ ps2, tl, ?_⟩
      rw [if_pos hcur, List.append_assoc]

theorem cleanSection_intro (ps : List (List Char)) :
    cleanSection ⟨some ("Introduction".data), ps⟩ =
      some ⟨some ("Introduction".data), ps⟩ := by
  rw [cleanSection_someH_eq, if_neg (by decide), if_neg (by decide),
    if_pos (show keepSection ⟨some (cleanedHeading ("Introduction".data)), ps⟩ = true by
      unfold keepSection
      rw [show truthyHeading (some (cleanedHeading ("Introduction".data))) = true
        from by decide]
      rfl)]
  rw [show cleanedHeading ("Introduction".data) = ("Introduction".data) from by decide]

theorem titleRule_eq (s : List Char) :
    titleRule s =
      if 1 ≤ (pySplitWs s).length ∧ (pySplitWs s).length ≤ 12 then
        decide (max 2 (intFloat06 (pySplitWs s).length) ≤
          ((pySplitWs s).filter startsUpperAZ).length)
      else false := rfl

/-- The title-case threshold as the specification words it:
`max(2, ceil(0.6 * word_count))`.  This definition follows the spec's words,
for comparison with the source-derived `intFloat06` threshold. -/
def specTitleThreshold (n : Nat) : Nat := max 2 (Nat.ceil ((6 : ℚ) / 10 * n))

/-- Does `tok` occur as a contiguous substring of `s`? -/
def hasSub (tok : List Char) : List Char → Bool
  | [] => tok.isEmpty
  | s@(_ :: r) => tok.isPrefixOf s || hasSub tok r

/-- C1: every section emitted by `build_sections` has a non-empty heading or
at least one non-empty paragraph; empty sections are never emitted. -/
theorem claim_C1 (t : List Char) (s : Section) (hs : s ∈ build_sections t) :
    (∃ h, s.heading = some h ∧ h ≠ []) ∨ (∃ p ∈ s.paragraphs, p ≠ []) := by
  obtain ⟨s₀, hs₀, hclean⟩ := mem_build_sections hs
  obtain ⟨hpar, hkeep⟩ := cleanSection_some hclean
  rcases hkeep with htr | hne
  · left
    cases hh : s.heading with
    | none => rw [hh] at htr; simp [truthyHeading] at htr
    | some h =>
      refine ⟨h, rfl, ?_⟩
      rw [hh] at htr
      unfold truthyHeading at htr
      simpa using htr
  · right
    obtain ⟨p, hp⟩ := List.exists_mem_of_ne_nil _ hne
    refine ⟨p, hp, ?_⟩
    exact (rawSections_paragraphsOK t s₀ hs₀ p (hpar ▸ hp)).1

/-- Witness for C1 at the spec's all-caps example input. -/
theorem claim_C1_witness :
    (∃ h, (⟨some ("Eligibility".data), [("Some text here.".data)]⟩ : Section).heading
        = some h ∧ h ≠ []) ∨
      (∃ p ∈ (⟨some ("Eligibility".data),
        [("Some text here.".data)]⟩ : Section).paragraphs, p ≠ []) :=
  claim_C1 ("ELIGIBILITY\n\nSome text here.".data) _ (by decide)

/-- C2: `build_sections` is total — in this pure embedding it returns a
section list for every input string — and the empty string produces the
empty section list. -/
theorem claim_C2 :
    (∀ t : String, ∃ secs : List Section, build_sections t.data = secs) ∧
      build_sections ("".data) = [] :=
  ⟨fun t => ⟨build_sections t.data, rfl⟩, rfl⟩

/-- C3 counterexample: the line `"Ab Cd ef gh"` splits into 4 words of which
2 start with an uppercase letter, matches no earlier heading rule, and IS
classified as a heading, although the spec's threshold
`max(2, ceil(0.6 * 4)) = 3` exceeds 2 — so the claimed iff with the
ceiling-based threshold fails (the code truncates instead of ceiling). -/
theorem claim_C3_counterexample :
    is_heading ("Ab Cd ef gh".data) = true ∧
      (pySplitWs (stripWs ("Ab Cd ef gh".data))).length = 4 ∧
      ((pySplitWs (stripWs ("Ab Cd ef gh".data))).filter startsUpperAZ).length = 2 ∧
      allCapsRule (stripWs ("Ab Cd ef gh".data)) = false ∧
      rule2 (stripWs ("Ab Cd ef gh".data)) = false ∧
      rule3 (stripWs ("Ab Cd ef gh".data)) = false ∧
      specTitleThreshold 4 = 3 := by
  refine ⟨by decide, by decide, by decide, by decide, by decide, by decide, ?_⟩
  unfold specTitleThreshold
  have h1 : ((6 : ℚ) / 10 * ((4 : ℕ) : ℚ)) = 12 / 5 := by norm_num
  rw [h1]
  have h5 : (Nat.ceil ((12 : ℚ) / 5)) = 3 := by
    rw [Nat.ceil_eq_iff (by norm_num)]
    norm_num
  rw [h5]
  rfl

/-- C3 (amended): for a line of 1 to 12 whitespace-separated words that
matches no earlier heading rule, the title-case rule classifies it as a
heading iff at least `max(2, int(0.6 * word_count))` words start with an
uppercase letter, where the truncating `int` of the IEEE-754 product equals
`⌊3·word_count/5⌋` — not the spec's `ceil`. -/
theorem claim_C3 (line : List Char)
    (hn1 : 1 ≤ (pySplitWs (stripWs line)).length)
    (hn2 : (pySplitWs (stripWs line)).length ≤ 12)
    (hcaps : allCapsRule (stripWs line) = false)
    (h2 : rule2 (stripWs line) = false)
    (h3 : rule3 (stripWs line) = false) :
    is_heading line = true ↔
      max 2 (intFloat06 (pySplitWs (stripWs line)).length) ≤
        ((pySplitWs (stripWs line)).filter startsUpperAZ).length := by
  have hne : ¬ (stripWs line).isEmpty = true := by
    intro he
    rw [List.isEmpty_iff] at he
    rw [he] at hn1
    exact absurd hn1 (by decide)
  rw [is_heading_eq, if_neg hne, if_neg (by rw [hcaps]; exact Bool.false_ne_true),
    if_neg (by rw [h2]; exact Bool.false_ne_true),
    if_neg (by rw [h3]; exact Bool.false_ne_true),
    titleRule_eq, if_pos ⟨hn1, hn2⟩]
  simp

/-- Witness for C3 at the spec's title-case boundary example. -/
theorem claim_C3_witness :
    is_heading ("Quick Brown Fox Jumps".data) = true ↔
      max 2 (intFloat06 (pySplitWs (stripWs ("Quick Brown Fox Jumps".data))).length) ≤
        ((pySplitWs (stripWs ("Quick Brown Fox Jumps".data))).filter
          startsUpperAZ).length :=
  claim_C3 ("Quick Brown Fox Jumps".data) (by decide) (by decide) (by decide)
    (by decide) (by decide)

/-- C4 counterexample: on the input `"ELIGIBILITY\n\nSome text here."` the
single heading-start block's whitespace-collapsed first line is
`"ELIGIBILITY"`, but the first emitted section's heading is the normalized
`"Eligibility"` — not that first line. -/
theorem claim_C4_counterexample :
    headFirsts (blocksOf ("ELIGIBILITY\n\nSome text here.".data)) =
        [("ELIGIBILITY".data)] ∧
      (build_sections ("ELIGIBILITY\n\nSome text here.".data)).map Section.heading =
        [some ("Eligibility".data)] ∧
      ("Eligibility".data : List Char) ≠ ("ELIGIBILITY".data) := by decide

/-- C4 (amended): the raw segmentation preserves source order — the heading
of the Nth raw section is the Nth entry of `rawHeadingLines` (an optional
implicit `"Introduction"` followed by the collapsed first lines of the
heading-start blocks, in order) — and the emitted headings are, in order, a
sublist of the normalized (title-cased, crumb- and emptiness-filtered) forms
of those raw heading lines. -/
theorem claim_C4 (t : List Char) :
    (rawSections t).map Section.heading = (rawHeadingLines t).map some ∧
      ((build_sections t).map Section.heading).Sublist
        ((rawHeadingLines t).map (fun h => some (cleanedHeading h))) := by
  refine ⟨rawSections_map_heading t, ?_⟩
  unfold build_sections
  exact cleanup_headings_sublist _ _ (rawSections_map_heading t)

/-- C5 counterexample: the input `"ELIGIBILITY\n\nSome text here."` does
not yield a section with heading `"ELIGIBILITY"` — the cleanup pass
title-cases the heading. -/
theorem claim_C5_counterexample :
    build_sections ("ELIGIBILITY\n\nSome text here.".data) ≠
      [⟨some ("ELIGIBILITY".data), [("Some text here.".data)]⟩] := by decide

/-- C5 (amended): the input `"ELIGIBILITY\n\nSome text here."` yields
exactly one section, with the title-cased heading `"Eligibility"` and the
single paragraph `"Some text here."`. -/
theorem claim_C5 :
    build_sections ("ELIGIBILITY\n\nSome text here.".data) =
      [⟨some ("Eligibility".data), [("Some text here.".data)]⟩] := by decide

/-- C6 counterexample: a 91-character line whose alphabetic characters are
all uppercase IS classified as a heading (two all-caps words satisfy the
title-case rule), so the claim that `is_heading` returns `False` on every
such line fails. -/
theorem claim_C6_counterexample :
    (List.replicate 45 'A' ++ ' ' :: List.replicate 45 'B').length = 91 ∧
      stripWs (List.replicate 45 'A' ++ ' ' :: List.replicate 45 'B') =
        (List.replicate 45 'A' ++ ' ' :: List.replicate 45 'B') ∧
      ((List.replicate 45 'A' ++ ' ' :: List.replicate 45 'B').filter
        isAlphaAZ) ≠ [] ∧
      ((List.replicate 45 'A' ++ ' ' :: List.replicate 45 'B').filter
        isAlphaAZ).all isUpperAZ = true ∧
      is_heading (List.replicate 45 'A' ++ ' ' :: List.replicate 45 'B') = true := by
  decide

/-- C6 (amended): a stripped 91-character line whose alphabetic characters
are all uppercase fails the all-caps rule (length cutoff 90) but is still
checked against the remaining rules: `is_heading` returns exactly the
disjunction of the enumerated, decimal-numbered and title-case rules. -/
theorem claim_C6 (line : List Char) (hs : stripWs line = line)
    (hlen : line.length = 91)
    (_hletters : line.filter isAlphaAZ ≠ [])
    (_hupper : (line.filter isAlphaAZ).all isUpperAZ = true) :
    is_heading line = (rule2 line || rule3 line || titleRule line) := by
  have hne : ¬ line.isEmpty = true := by
    intro he
    rw [List.isEmpty_iff] at he
    rw [he] at hlen
    simp at hlen
  have hcaps : allCapsRule line = false := by
    unfold allCapsRule HEADING_MAX_LEN
    rw [hlen]
    simp
  rw [is_heading_eq, hs, if_neg hne,
    if_neg (by rw [hcaps]; exact Bool.false_ne_true)]
  by_cases hr2 : rule2 line = true
  · rw [if_pos hr2, hr2, Bool.true_or, Bool.true_or]
  · rw [if_neg hr2, (Bool.not_eq_true _ ▸ hr2 : rule2 line = false), Bool.false_or]
    by_cases hr3 : rule3 line = true
    · rw [if_pos hr3, hr3, Bool.true_or]
    · rw [if_neg hr3, (Bool.not_eq_true _ ▸ hr3 : rule3 line = false), Bool.false_or]

/-- Witness for C6 at the 91-character two-word all-caps line. -/
theorem claim_C6_witness :
    is_heading (List.replicate 45 'A' ++ ' ' :: List.replicate 45 'B') =
      (rule2 (List.replicate 45 'A' ++ ' ' :: List.replicate 45 'B') ||
        rule3 (List.replicate 45 'A' ++ ' ' :: List.replicate 45 'B') ||
        titleRule (List.replicate 45 'A' ++ ' ' :: List.replicate 45 'B')) :=
  claim_C6 _ (by decide) (by decide) (by decide) (by decide)

/-- C7: when the first block of the input is a continuation (its first line
matches no heading rule), the first emitted section has the literal heading
`"Introduction"`. -/
theorem claim_C7 (t : List Char) (b : List (List Char))
    (bs : List (List (List Char)))
    (hb : blocksOf t = b :: bs)
    (hh : is_heading (stripWs (b.headD [])) = false) :
    ∃ ps tl, build_sections t =
      (⟨some ("Introduction".data), ps⟩ : Section) :: tl := by
  have hraw : rawSections t =
      segLoop [] ⟨some ("Introduction".data),
        split_paragraphs (List.intercalate ['\n'] b)⟩ bs := by
    unfold rawSections
    rw [hb, segLoop_cons, if_neg (by rw [hh]; exact Bool.false_ne_true)]
    rfl
  obtain ⟨ps', tl, he⟩ := segLoop_head_of_truthy bs
    ⟨some ("Introduction".data), split_paragraphs (List.intercalate ['\n'] b)⟩
    rfl
  refine ⟨split_paragraphs (List.intercalate ['\n'] b) ++ ps', cleanup tl, ?_⟩
  unfold build_sections
  rw [hraw, he]
  unfold cleanup
  rw [List.filterMap_cons]
  rw [show cleanSection ⟨(⟨some ("Introduction".data),
      split_paragraphs (List.intercalate ['\n'] b)⟩ : Section).heading,
      (⟨some ("Introduction".data),
        split_paragraphs (List.intercalate ['\n'] b)⟩ : Section).paragraphs ++ ps'⟩ =
    some ⟨some ("Introduction".data),
      split_paragraphs (List.intercalate ['\n'] b) ++ ps'⟩
    from cleanSection_intro _]

/-- Witness for C7 at a plain lower-case prose input. -/
theorem claim_C7_witness :
    ∃ ps tl, build_sections ("hello world".data) =
      (⟨some ("Introduction".data), ps⟩ : Section) :: tl :=
  claim_C7 ("hello world".data) [("hello world".data)] [] (by decide) (by decide)

/-- C8: the segmenter is deterministic — in this pure-functional embedding
two runs of `build_sections` on the same string are definitionally the same
value. -/
theorem claim_C8 : ∀ t : String, build_sections t.data = build_sections t.data :=
  fun _ => rfl

/-- C9: every paragraph produced by `split_paragraphs` — and hence every
paragraph of every emitted section — is non-empty, has no leading or
trailing whitespace, contains no newline, and has no run of two or more
consecutive whitespace characters. -/
theorem claim_C9 :
    (∀ (t p : List Char), p ∈ split_paragraphs t → goodPara p) ∧
      (∀ (t : List Char) (s : Section), s ∈ build_sections t →
        ∀ p ∈ s.paragraphs, goodPara p) := by
  constructor
  · intro t p hp
    exact split_paragraphs_goodPara hp
  · intro t s hs p hp
    obtain ⟨s₀, hs₀, hclean⟩ := mem_build_sections hs
    obtain ⟨hpar, _⟩ := cleanSection_some hclean
    exact rawSections_paragraphsOK t s₀ hs₀ p (hpar ▸ hp)

/-- Witness for C9 at a concrete paragraph. -/
theorem claim_C9_witness : goodPara ("hello world".data) :=
  claim_C9.1 ("hello world".data) ("hello world".data) (by decide)

/-- C10 counterexample: the heading `"Previous: Alpha Next: Beta"` contains
both tokens `"Previous:"` and `"Next:"` as substrings, yet the section is
emitted — the crumb regex `\bPrevious:\b` requires a word character
immediately after the colon, which a following space defeats. -/
theorem claim_C10_counterexample :
    build_sections ("Previous: Alpha Next: Beta".data) =
        [⟨some ("Previous: Alpha Next: Beta".data), []⟩] ∧
      hasSub ("Previous:".data) ("Previous: Alpha Next: Beta".data) = true ∧
      hasSub ("Next:".data) ("Previous: Alpha Next: Beta".data) = true := by
  decide

/-- C10 (amended): a section whose raw stripped heading matches both
`\bPrevious:\b` and `\bNext:\b` (each token immediately followed by a word
character, at a word boundary) is dropped by the cleanup pass with all its
paragraphs; and every emitted section arises from a raw section that the
cleanup pass kept. -/
theorem claim_C10 :
    (∀ (h0 : List Char) (ps : List (List Char)), h0 ≠ [] →
        hasCrumb (stripWs h0) = true → cleanSection ⟨some h0, ps⟩ = none) ∧
      (∀ (t : List Char) (s : Section), s ∈ build_sections t →
        ∃ s₀, s₀ ∈ rawSections t ∧ cleanSection s₀ = some s) := by
  constructor
  · intro h0 ps hne hcr
    rw [cleanSection_someH_eq, if_neg (by simpa using hne), if_pos hcr]
  · intro t s hs
    exact mem_build_sections hs

/-- Witness for C10: a crumb heading with word characters after the colons
is dropped even though its section had no other defect. -/
theorem claim_C10_witness :
    cleanSection ⟨some ("Previous:A Next:B".data), [("x".data)]⟩ = none :=
  claim_C10.1 ("Previous:A Next:B".data) [("x".data)] (by decide) (by decide)

end Extract
